import Mathlib

/-!
Verification of the peak-finding core of `anlffr/preproc.py` (`peak_finder`).

The embedding below is a line-by-line shallow embedding of `peak_finder`
(lines 90-251 of `src/anlffr/preproc.py`) over exact rationals.  Machine
floats are modelled by `ℚ`; the `np.finfo(float).eps` constant used for the
plateau tie-break is its exact value `2 ^ (-52)`.  Numpy / Python runtime
errors that the function can raise are modelled by an explicit error type:
`ValueError` for the rank check and for reductions over empty arrays,
`AssertionError` for the `extrema` assertion, and `TypeError` for the two
places where the code applies an operation to a value of the wrong type
(`list *= -1.0`, and `len()` of a numpy scalar).

The preallocated output buffers of the scanner (`peak_loc` / `peak_mag`, written
sequentially at `c_ind`) are modelled by a growing list of records plus the
preallocated capacity `maxPeaks`; the read `peak_mag[-1]` of the last buffer
cell is 0 unless all `maxPeaks` cells have been written, which `lastSlot`
reproduces.  The capacity theorem for claim C10 shows the list never grows
past `maxPeaks`, so the sequential writes match the numpy array writes.
-/

namespace Preproc

/-- `np.finfo(float).eps`, the exact machine epsilon of an IEEE-754 double. -/
def eps : ℚ := 1 / 2 ^ 52

/-- Python/numpy exceptions that `peak_finder` can raise. -/
inductive PFErr where
  | shapeError   -- ValueError: the input data must be a 1D vector
  | valueError   -- ValueError from a numpy reduction over an empty array
  | assertError  -- AssertionError from `assert extrema in [-1, 1]`
  | typeError    -- TypeError from `[] *= -1.0` or `len(<numpy scalar>)`
  deriving DecidableEq, Repr

/-- The value held in `(peak_inds, peak_mags)` just before the final
`len(peak_inds)` check: a pair of numpy arrays from the scanner path, a pair
of numpy scalars from the successful degenerate path, or a pair of empty
Python lists from the failed degenerate path. -/
inductive RawRes where
  | npArr (recs : List (Nat × ℚ))
  | scalar (rec : Nat × ℚ)
  | pyEmpty
  deriving DecidableEq, Repr

/-- `np.sign` on a rational. -/
def qsign (v : ℚ) : ℤ := if 0 < v then 1 else if v < 0 then -1 else 0

/-- `np.min` of a nonempty list (0 for the empty list; callers guard). -/
def listMin : List ℚ → ℚ
  | [] => 0
  | a :: r => r.foldl min a

/-- `np.max` of a nonempty list (0 for the empty list; callers guard). -/
def listMax : List ℚ → ℚ
  | [] => 0
  | a :: r => r.foldl max a

/-- `np.argmax`: index of the first occurrence of the maximum value. -/
def argmaxIdx : List ℚ → Nat
  | [] => 0
  | [_] => 0
  | a :: b :: r =>
    if a < (b :: r).getD (argmaxIdx (b :: r)) 0 then argmaxIdx (b :: r) + 1 else 0

/-- `np.diff`: `d[i] = l[i+1] - l[i]`. -/
def npDiff (l : List ℚ) : List ℚ := (l.zip l.tail).map (fun p => p.2 - p.1)

/-- Line 146: `dx0[dx0 == 0] = -np.finfo(float).eps`. -/
def fixZeros (d : List ℚ) : List ℚ := d.map (fun v => if v = 0 then -eps else v)

/-- Line 148: `np.where(dx0[:-1:] * dx0[1::] < 0)[0] + 1`. -/
def signChanges (d : List ℚ) : List Nat :=
  ((List.range (d.length - 1)).filter (fun i => d.getD i 0 * d.getD (i + 1) 0 < 0)).map
    (fun i => i + 1)

/-- Line 151: `x = np.concatenate((x0[:1], x0[ind], x0[-1:]))`. -/
def candidates (w : List ℚ) : List ℚ :=
  w.take 1 ++ (signChanges (fixZeros (npDiff w))).map (fun i => w.getD i 0) ++
    w.drop (w.length - 1)

/-- Line 152: `ind = np.concatenate(([0], ind, [s - 1]))`. -/
def candIdxs (w : List ℚ) : List Nat :=
  0 :: (signChanges (fixZeros (npDiff w)) ++ [w.length - 1])

/-- The mutable state of the scanner (lines 161-163, 187): the pending peak
location/magnitude, the confirmed flag, the running left minimum, and the
records written so far into `peak_loc` / `peak_mag`. -/
structure ScanSt where
  temp_loc : Nat
  temp_mag : ℚ
  found_peak : Bool
  left_min : ℚ
  recs : List (Nat × ℚ)
  deriving DecidableEq, Repr

/-- The value of `peak_mag[-1]`: the last cell of the preallocated zero
buffer of size `mp`, which holds 0 until all `mp` cells have been written. -/
def lastSlot (recs : List (Nat × ℚ)) (mp : Nat) : ℚ :=
  if recs.length = mp then (recs.getLast?.elim 0 Prod.snd) else 0

/-- Lines 193-196: the reset check at the start of a peak step. -/
def peakStep (xs : List ℚ) (th mn : ℚ) (mp : Nat) (np : Nat) (st : ScanSt) : ScanSt :=
  if st.found_peak = true ∧
      (lastSlot st.recs mp < xs.getD np 0 ∨ st.left_min < lastSlot st.recs mp - th) then
    { st with temp_mag := mn, found_peak := false }
  else st

/-- Lines 204-206: adopt a new pending peak. -/
def pendStep (xs : List ℚ) (th : ℚ) (np : Nat) (st : ScanSt) : ScanSt :=
  if st.temp_mag < xs.getD np 0 ∧ st.left_min + th < xs.getD np 0 then
    { st with temp_loc := np, temp_mag := xs.getD np 0 }
  else st

/-- Lines 210-217: the valley step, confirming a pending peak that has
dropped by at least `thresh`, else tracking a new left minimum. -/
def valleyStep (xs : List ℚ) (th : ℚ) (nv : Nat) (st : ScanSt) : ScanSt :=
  if st.found_peak = false ∧ th + xs.getD nv 0 < st.temp_mag then
    { st with found_peak := true, left_min := xs.getD nv 0,
              recs := st.recs ++ [(st.temp_loc, st.temp_mag)] }
  else if xs.getD nv 0 < st.left_min then { st with left_min := xs.getD nv 0 }
  else st

/-- Lines 189-217: the `while ii < (length - 1)` loop.  `np` is `ii + 1`,
the index of the next peak step (`ii` starts at -1 or 0, so `np` starts at
0 or 1 and the loop guard `ii < length - 1` is `np < length`).  The `fuel`
argument makes the recursion structural; the loop advances `np` by 2 each
iteration, so any `fuel ≥ xs.length / 2 + 1` gives the exact
behaviour of the while loop (the callers pass `xs.length + 1`). -/
def scanLoop (xs : List ℚ) (th mn : ℚ) (mp : Nat) : Nat → Nat → ScanSt → ScanSt
  | 0, _, st => st
  | fuel + 1, np, st =>
    if np < xs.length then
      let st1 := peakStep xs th mn mp np st
      if np = xs.length - 1 then st1
      else scanLoop xs th mn mp fuel (np + 2)
        (valleyStep xs th (np + 1) (pendStep xs th np st1))
    else st

/-- Lines 220-228: the end-point check after the loop. -/
def endCheck (xs : List ℚ) (th mn : ℚ) (st : ScanSt) : List (Nat × ℚ) :=
  if st.temp_mag < xs.getD (xs.length - 1) 0 ∧
      st.left_min + th < xs.getD (xs.length - 1) 0 then
    st.recs ++ [(xs.length - 1, xs.getD (xs.length - 1) 0)]
  else if st.found_peak = false ∧ mn < st.temp_mag then
    st.recs ++ [(st.temp_loc, st.temp_mag)]
  else st.recs

/-- Line 184: `maxPeaks = int(ceil(length / 2.0))` (post-bootstrap length). -/
def maxPeaksOf (xs : List ℚ) : Nat := (xs.length + 1) / 2

/-- Lines 165-181: the bootstrap.  Returns the starting peak-step index
`np = ii + 1` and the possibly shrunk candidate value/index lists. -/
def bootstrap (xs : List ℚ) (inds : List Nat) : Nat × List ℚ × List Nat :=
  if qsign (xs.getD 1 0 - xs.getD 0 0) ≤ 0 then
    if qsign (xs.getD 1 0 - xs.getD 0 0) = qsign (xs.getD 2 0 - xs.getD 1 0) then
      (0, xs.take 1 ++ xs.drop 2, inds.take 1 ++ inds.drop 2)
    else (0, xs, inds)
  else
    if qsign (xs.getD 1 0 - xs.getD 0 0) = qsign (xs.getD 2 0 - xs.getD 1 0) then
      (1, xs.drop 1, inds.drop 1)
    else (1, xs, inds)

/-- The scan loop plus the end-point check, from the initial state of
lines 161-163 (`temp_mag = left_min = min_mag`, `found_peak = False`). -/
def scanRecs (xs : List ℚ) (th mn : ℚ) (np0 : Nat) : List (Nat × ℚ) :=
  endCheck xs th mn
    (scanLoop xs th mn (maxPeaksOf xs) (xs.length + 1) np0 ⟨0, mn, false, mn, []⟩)

/-- Lines 158-232: the whole `length > 2` branch.  `mn` is `min_mag`,
computed at line 156 from the pre-bootstrap candidate list. -/
def scannerPath (xs : List ℚ) (inds : List Nat) (mn th : ℚ) : RawRes :=
  .npArr ((scanRecs (bootstrap xs inds).2.1 th mn (bootstrap xs inds).1).map
    (fun r => ((bootstrap xs inds).2.2.getD r.1 0, r.2)))

/-- Lines 144-240: candidate extraction, then the scanner or the degenerate
(monotone) branch.  `np.min` of the empty candidate list (line 156, reached
only when the input is empty) raises `ValueError`.  In the degenerate
branch, `x_ind = np.argmax(x)`, `peak_mags = x[x_ind]`, and the peak is
accepted iff `peak_mags > min_mag + thresh`. -/
def core (w : List ℚ) (th : ℚ) : Except PFErr RawRes :=
  if (candidates w).length = 0 then .error .valueError
  else if 2 < (candidates w).length then
    .ok (scannerPath (candidates w) (candIdxs w) (listMin (candidates w)) th)
  else if listMin (candidates w) + th <
      (candidates w).getD (argmaxIdx (candidates w)) 0 then
    .ok (.scalar ((candIdxs w).getD (argmaxIdx (candidates w)) 0,
      (candidates w).getD (argmaxIdx (candidates w)) 0))
  else .ok .pyEmpty

/-- Lines 136-137: the default threshold `(np.max(x0) - np.min(x0)) / 4`,
computed from the original signal before any sign inversion; `np.max` of an
empty array raises `ValueError`. -/
def resolveThresh (x0 : List ℚ) : Option ℚ → Except PFErr ℚ
  | some t => .ok t
  | none => if x0 = [] then .error .valueError else .ok ((listMax x0 - listMin x0) / 4)

/-- Lines 242-245: `peak_mags *= -1.0`.  On the empty Python list from the
failed degenerate branch this is `list *= float` and raises `TypeError`;
on numpy scalars and arrays it negates the magnitudes. -/
def negateRes : RawRes → Except PFErr RawRes
  | .pyEmpty => .error .typeError
  | .scalar rec => .ok (.scalar (rec.1, -rec.2))
  | .npArr recs => .ok (.npArr (recs.map (fun p => (p.1, -p.2))))

/-- Lines 247-251: the final `if len(peak_inds) == 0` check and return.
`len()` of the numpy integer scalar produced by the successful degenerate
branch raises `TypeError`. -/
def finalize : RawRes → Except PFErr (List (Nat × ℚ))
  | .pyEmpty => .ok []
  | .scalar _ => .error .typeError
  | .npArr recs => .ok recs

/-- Lines 129-251: `peak_finder(x0, thresh, extrema)`.  `ndim` is the rank
of the input array; the data of a rank-1 input is `x0`. -/
def peak_finder (ndim : Nat) (x0 : List ℚ) (thresh : Option ℚ) (extrema : ℤ) :
    Except PFErr (List (Nat × ℚ)) :=
  if 2 ≤ ndim then .error .shapeError
  else
    match resolveThresh x0 thresh with
    | .error e => .error e
    | .ok th =>
      if extrema = 1 ∨ extrema = -1 then
        match core (if extrema = -1 then x0.map (fun v => -v) else x0) th with
        | .error e => .error e
        | .ok raw =>
          match (if extrema < 0 then negateRes raw else .ok raw) with
          | .error e => .error e
          | .ok raw2 => finalize raw2
      else .error .assertError

/-! ### Concrete runs used by the claims -/

/-- The signal for claim C1: a confirmed positive peak (magnitude 3 at
candidate index 1) followed by a small sub-zero wiggle. -/
def c1sig : List ℚ := [-1, 3, -1, -(1/2), -1]

/-- The scanner state reached after the first loop iteration on `c1sig`
with `thresh = 2`: the candidate list is `c1sig` itself, `min_mag = -1`,
`maxPeaks = 3`, the bootstrap starts the loop at `ii = 0` (`np = 1`), and
one iteration (fuel 1) confirms the peak `(1, 3)`. -/
def c1st : ScanSt := scanLoop c1sig 2 (-1) 3 1 1 ⟨0, -1, false, -1, []⟩

/-- C1: at the peak step that follows the confirmation of the peak `(1, 3)`
(candidate index 3, value -1/2), `found_peak` is true and
`left_min = -1 < 3 - 2`, i.e. `left_min` is below the most recently
magnitude of the most recently confirmed peak minus `thresh`, so the claim demands a reset of
the pending state; but the reset test of the code compares against
`peak_mag[-1]`, the last cell of the preallocated zero buffer (still 0.0
since only 1 of the 3 slots is written), and `peakStep` leaves the state
unchanged: no reset happens.  The full pipeline on this input is also
evaluated to show the state is reached by an actual `peak_finder` run. -/
theorem C1_reset_divergence :
    peak_finder 1 c1sig (some 2) 1 = .ok [(1, 3)] ∧
    candidates c1sig = c1sig ∧
    bootstrap c1sig (candIdxs c1sig) = (1, c1sig, candIdxs c1sig) ∧
    c1st.found_peak = true ∧
    c1st.recs = [(1, 3)] ∧
    c1st.left_min < (c1st.recs.getLast?.elim 0 Prod.snd) - 2 ∧
    peakStep c1sig 2 (-1) 3 3 c1st = c1st := by
  refine ⟨?_, ?_, ?_, ?_, ?_, ?_, ?_⟩ <;> with_unfolding_all rfl

/-- C2: on the monotone signal `[1,2,3,4,5]` with `thresh = 1` the
degenerate branch correctly computes the single record `(4, 5)` (first
conjunct), but the function then raises `TypeError` — `len()` of the numpy
scalar `peak_inds` in the final `len(peak_inds) == 0` check — instead of
returning it (second conjunct).  With `thresh = 10` (so `5 ≤ 1 + thresh`)
the empty result is returned as the claim states (third conjunct). -/
theorem C2_monotone_crash :
    core [1, 2, 3, 4, 5] 1 = .ok (.scalar (4, 5)) ∧
    peak_finder 1 [1, 2, 3, 4, 5] (some 1) 1 = .error .typeError ∧
    peak_finder 1 [1, 2, 3, 4, 5] (some 10) 1 = .ok [] :=
  ⟨by with_unfolding_all rfl, by with_unfolding_all rfl, by with_unfolding_all rfl⟩

/-- C5: on `[0, 5, 5, 5, 0]` with `thresh = 1` and maxima polarity the
zero differences of the plateau are replaced by `-eps` (first conjunct), so
the only candidate kept from the plateau is its first sample, and the
output is exactly the peak `(1, 5)` (second conjunct). -/
theorem C5_plateau :
    fixZeros (npDiff [0, 5, 5, 5, 0]) = [5, -eps, -eps, -5] ∧
    peak_finder 1 [0, 5, 5, 5, 0] (some 1) 1 = .ok [(1, 5)] :=
  ⟨by with_unfolding_all rfl, by with_unfolding_all rfl⟩

/-- C6: a single oscillation is accepted exactly when its rise strictly
clears the threshold: `[0, 1, 0]` with `thresh = 2` yields no peaks, and
`[0, 3, 0]` with `thresh = 1` yields exactly `(1, 3)`. -/
theorem C6_oscillation :
    peak_finder 1 [0, 1, 0] (some 2) 1 = .ok [] ∧
    peak_finder 1 [0, 3, 0] (some 1) 1 = .ok [(1, 3)] :=
  ⟨by with_unfolding_all rfl, by with_unfolding_all rfl⟩

/-! ### Shape validation and default threshold -/

/-- C8: any input of rank 2 or higher fails with the shape error, whatever
its contents, threshold and polarity; the check is the first step of
`peak_finder`, before any differencing or scanning. -/
theorem C8_shape_validation (ndim : Nat) (x0 : List ℚ) (thresh : Option ℚ)
    (extrema : ℤ) (h : 2 ≤ ndim) :
    peak_finder ndim x0 thresh extrema = .error .shapeError := by
  unfold peak_finder
  rw [if_pos h]

/-- C8 witness: a rank-2 input with arbitrary contents, omitted threshold
and an invalid polarity still yields the shape error. -/
theorem C8_shape_validation_witness :
    2 ≤ 2 ∧ peak_finder 2 [1, 2, 3] none 5 = .error .shapeError :=
  ⟨le_refl 2, C8_shape_validation 2 [1, 2, 3] none 5 (le_refl 2)⟩

/-- C7: for every nonempty signal and either polarity, omitting the
threshold behaves exactly like passing `(max x0 - min x0) / 4`. -/
theorem C7_default_threshold (x0 : List ℚ) (extrema : ℤ) (h : x0 ≠ []) :
    peak_finder 1 x0 none extrema =
      peak_finder 1 x0 (some ((listMax x0 - listMin x0) / 4)) extrema := by
  simp [peak_finder, resolveThresh, h]

/-- C7 witness at a concrete signal. -/
theorem C7_default_threshold_witness :
    ([0, 3, 0] : List ℚ) ≠ [] ∧
    peak_finder 1 [0, 3, 0] none 1 =
      peak_finder 1 [0, 3, 0] (some ((listMax [0, 3, 0] - listMin [0, 3, 0]) / 4)) 1 :=
  ⟨by simp, C7_default_threshold [0, 3, 0] 1 (by simp)⟩

/-! ### Polarity mirroring -/

/-- Unfolding of a rank-1 minima call: the working signal is the negated
input, and the result goes through `negateRes` before `finalize`. -/
theorem peak_finder_minima (x0 : List ℚ) (t : ℚ) :
    peak_finder 1 x0 (some t) (-1) =
      match core (x0.map (fun v => -v)) t with
      | .error e => .error e
      | .ok raw =>
        match negateRes raw with
        | .error e => .error e
        | .ok raw2 => finalize raw2 := by
  unfold peak_finder
  norm_num [resolveThresh]

/-- Unfolding of a rank-1 maxima call: the working signal is the input
itself, and `negateRes` is skipped. -/
theorem peak_finder_maxima (x0 : List ℚ) (t : ℚ) :
    peak_finder 1 x0 (some t) 1 =
      match core x0 t with
      | .error e => .error e
      | .ok raw => finalize raw := by
  unfold peak_finder
  norm_num [resolveThresh]

/-- The failed degenerate branch: at most two candidates, none clearing
`min + thresh`, yields the empty-Python-list result. -/
theorem core_eq_pyEmpty (w : List ℚ) (t : ℚ) (h0 : 0 < (candidates w).length)
    (h1 : (candidates w).length ≤ 2)
    (h2 : ¬ (listMin (candidates w) + t <
        (candidates w).getD (argmaxIdx (candidates w)) 0)) :
    core w t = .ok .pyEmpty := by
  have hne : ¬ ((candidates w).length = 0) := by omega
  have hnlt : ¬ (2 < (candidates w).length) := by omega
  unfold core
  rw [if_neg hne, if_neg hnlt, if_neg h2]

/-- C3 counterexample: for `S = [1, 1]`, `t = 1`, the minima call raises
`TypeError` (the failed degenerate branch produces empty Python lists and
`peak_mags *= -1.0` is a list-times-float), while the maxima call on `-S`
returns the empty result; so the minima result does not equal the maxima
result on the negated signal with magnitudes negated. -/
theorem C3_mirror_cex :
    peak_finder 1 [1, 1] (some 1) (-1) = .error .typeError ∧
    peak_finder 1 ([1, 1].map (fun v : ℚ => -v)) (some 1) 1 = .ok [] ∧
    ¬ (peak_finder 1 [1, 1] (some 1) (-1) =
        Except.map (List.map (fun p : Nat × ℚ => (p.1, -p.2)))
          (peak_finder 1 ([1, 1].map (fun v : ℚ => -v)) (some 1) 1)) := by
  refine ⟨by with_unfolding_all rfl, by with_unfolding_all rfl, fun h => ?_⟩
  rw [show peak_finder 1 [1, 1] (some 1) (-1) = .error .typeError from
        by with_unfolding_all rfl,
      show peak_finder 1 ([1, 1].map (fun v : ℚ => -v)) (some 1) 1 = .ok [] from
        by with_unfolding_all rfl] at h
  exact Except.noConfusion h

/-- C3 amended: whenever the minima call returns normally, its result is
the maxima call on the negated signal with every magnitude negated and
indices unchanged. -/
theorem C3_mirror_of_ok (x0 : List ℚ) (t : ℚ) (recs : List (Nat × ℚ))
    (h : peak_finder 1 x0 (some t) (-1) = .ok recs) :
    peak_finder 1 (x0.map (fun v => -v)) (some t) 1 =
      .ok (recs.map (fun p => (p.1, -p.2))) := by
  rw [peak_finder_minima] at h
  rw [peak_finder_maxima]
  rcases hcore : core (x0.map (fun v => -v)) t with e | raw <;> rw [hcore] at h
  · exact Except.noConfusion h
  · cases raw with
    | pyEmpty => simp only [negateRes] at h; exact Except.noConfusion h
    | scalar rec => simp only [negateRes, finalize] at h; exact Except.noConfusion h
    | npArr rs =>
      simp only [negateRes, finalize] at h ⊢
      obtain rfl : rs.map (fun p => (p.1, -p.2)) = recs := Except.ok.inj h
      simp only [List.map_map]
      have hid : ((fun p : Nat × ℚ => (p.1, -p.2)) ∘ fun p : Nat × ℚ => (p.1, -p.2)) = id := by
        funext p
        simp
      rw [hid, List.map_id]

/-- C3 amended witness: a minima call that returns normally, mirrored by
the maxima call on the negated signal. -/
theorem C3_mirror_of_ok_witness :
    peak_finder 1 [0, -3, 0] (some 1) (-1) = .ok [(1, -3)] ∧
    peak_finder 1 ([0, -3, 0].map (fun v : ℚ => -v)) (some 1) 1 =
      .ok ([((1 : Nat), (-3 : ℚ))].map (fun p => (p.1, -p.2))) :=
  ⟨by with_unfolding_all rfl,
    C3_mirror_of_ok [0, -3, 0] 1 [(1, -3)] (by with_unfolding_all rfl)⟩

/-! ### The degenerate-empty minima TypeError -/

/-- Any nonempty signal has a nonempty candidate list. -/
theorem candidates_length_pos (w : List ℚ) (h : w ≠ []) :
    0 < (candidates w).length := by
  cases w with
  | nil => exact absurd rfl h
  | cons a r => simp [candidates]

/-- C9: when the candidate subsequence of the working signal has at most 2
entries and its maximum does not clear `min + thresh` (the failed
degenerate branch), a minima-polarity call raises `TypeError` — the empty
Python list result is multiplied by the float `-1.0` — instead of
returning an empty sequence. -/
theorem C9_degenerate_minima_raises (x0 : List ℚ) (t : ℚ) (h0 : x0 ≠ [])
    (h1 : (candidates (x0.map (fun v => -v))).length ≤ 2)
    (h2 : ¬ (listMin (candidates (x0.map (fun v => -v))) + t <
        (candidates (x0.map (fun v => -v))).getD
          (argmaxIdx (candidates (x0.map (fun v => -v)))) 0)) :
    peak_finder 1 x0 (some t) (-1) = .error .typeError := by
  have hw : (x0.map (fun v => -v)) ≠ [] := by simpa using h0
  have hpos := candidates_length_pos _ hw
  rw [peak_finder_minima, core_eq_pyEmpty _ _ hpos h1 h2]
  rfl

/-- C9 witness: the constant signal `[1, 1]` with `thresh = 1` and minima
polarity hits the degenerate-empty branch and raises `TypeError`. -/
theorem C9_degenerate_minima_raises_witness :
    ([1, 1] : List ℚ) ≠ [] ∧
    (candidates ([1, 1].map (fun v : ℚ => -v))).length ≤ 2 ∧
    ¬ (listMin (candidates ([1, 1].map (fun v : ℚ => -v))) + 1 <
        (candidates ([1, 1].map (fun v : ℚ => -v))).getD
          (argmaxIdx (candidates ([1, 1].map (fun v : ℚ => -v)))) 0) ∧
    peak_finder 1 [1, 1] (some 1) (-1) = .error .typeError := by
  refine ⟨by simp, ?_, ?_, ?_⟩
  · exact Nat.le_of_eq (by with_unfolding_all rfl)
  · exact of_decide_eq_false (by with_unfolding_all rfl)
  · exact C9_degenerate_minima_raises [1, 1] 1 (by simp)
      (Nat.le_of_eq (by with_unfolding_all rfl))
      (of_decide_eq_false (by with_unfolding_all rfl))

/-! ### Capacity of the preallocated record buffers (C10) -/

/-- The end-point check appends at most one record. -/
theorem endCheck_length_le (xs : List ℚ) (th mn : ℚ) (st : ScanSt) :
    (endCheck xs th mn st).length ≤ st.recs.length + 1 := by
  unfold endCheck
  split
  · simp
  · split
    · simp
    · simp

/-- The loop is a no-op once the cursor passed the end of the candidates. -/
theorem scanLoop_exit (xs : List ℚ) (th mn : ℚ) (mp fuel np : Nat) (st : ScanSt)
    (h : ¬ np < xs.length) : scanLoop xs th mn mp fuel np st = st := by
  cases fuel <;> simp [scanLoop, h]

/-- One unfolding of the loop body. -/
theorem scanLoop_succ (xs : List ℚ) (th mn : ℚ) (mp fuel np : Nat) (st : ScanSt) :
    scanLoop xs th mn mp (fuel + 1) np st =
      if np < xs.length then
        if np = xs.length - 1 then peakStep xs th mn mp np st
        else scanLoop xs th mn mp fuel (np + 2)
          (valleyStep xs th (np + 1) (pendStep xs th np (peakStep xs th mn mp np st)))
      else st := rfl

/-- The reset check does not touch the record buffers. -/
theorem peakStep_recs (xs : List ℚ) (th mn : ℚ) (mp np : Nat) (st : ScanSt) :
    (peakStep xs th mn mp np st).recs = st.recs := by
  unfold peakStep
  split <;> rfl

/-- Adopting a pending peak does not touch the record buffers. -/
theorem pendStep_recs (xs : List ℚ) (th : ℚ) (np : Nat) (st : ScanSt) :
    (pendStep xs th np st).recs = st.recs := by
  unfold pendStep
  split <;> rfl

/-- A valley step appends at most one record. -/
theorem valleyStep_recs_le (xs : List ℚ) (th : ℚ) (nv : Nat) (st : ScanSt) :
    (valleyStep xs th nv st).recs.length ≤ st.recs.length + 1 := by
  unfold valleyStep
  split
  · simp
  · split <;> simp

/-- A valley step at the last candidate index followed by the end-point
check appends at most one record in total: if the valley confirms a peak,
it sets `left_min` to the value of the last candidate, so (for a
non-negative threshold) the first branch of the end-point check fails and its
second branch is blocked by `found_peak`. -/
theorem endCheck_after_last_valley (xs : List ℚ) (th mn : ℚ) (nv : Nat) (st : ScanSt)
    (hth : 0 ≤ th) (hnv : nv = xs.length - 1) :
    (endCheck xs th mn (valleyStep xs th nv st)).length ≤ st.recs.length + 1 := by
  unfold valleyStep
  split
  · rename_i hconf
    unfold endCheck
    split
    · rename_i hend
      exfalso
      rw [hnv] at hend
      have := hend.2
      simp only at this
      linarith
    · split
      · rename_i hpend
        simp only at hpend
        exact absurd hpend.1 (by simp)
      · simp
  · split
    · exact le_trans (endCheck_length_le xs th mn _) (by simp)
    · exact endCheck_length_le xs th mn st

/-- The scan loop followed by the end-point check appends at most
`(length - 1 - np) / 2 + 1` records beyond those already written: one per
remaining valley step, plus at most one from the end-point check, with the
last valley step and the end-point check never both appending. -/
theorem scan_end_count (xs : List ℚ) (th mn : ℚ) (mp : Nat) (hth : 0 ≤ th) :
    ∀ fuel np st, (endCheck xs th mn (scanLoop xs th mn mp fuel np st)).length
      ≤ st.recs.length + ((xs.length - 1 - np) / 2 + 1) := by
  intro fuel
  induction fuel with
  | zero =>
    intro np st
    exact le_trans (endCheck_length_le xs th mn st) (by omega)
  | succ fuel ih =>
    intro np st
    by_cases hnp : np < xs.length
    · by_cases hbreak : np = xs.length - 1
      · rw [scanLoop_succ, if_pos hnp, if_pos hbreak]
        exact le_trans (endCheck_length_le xs th mn _)
          (by rw [peakStep_recs]; omega)
      · rw [scanLoop_succ, if_pos hnp, if_neg hbreak]
        by_cases hrec : np + 2 < xs.length
        · refine le_trans (ih (np + 2) _) ?_
          have h3 : (valleyStep xs th (np + 1)
              (pendStep xs th np (peakStep xs th mn mp np st))).recs.length
              ≤ st.recs.length + 1 := by
            refine le_trans (valleyStep_recs_le xs th (np + 1) _) ?_
            rw [pendStep_recs, peakStep_recs]
          omega
        · have hnp2 : np = xs.length - 2 := by omega
          rw [scanLoop_exit xs th mn mp fuel (np + 2) _ hrec]
          have hlast : np + 1 = xs.length - 1 := by omega
          refine le_trans (endCheck_after_last_valley xs th mn (np + 1) _ hth hlast) ?_
          rw [pendStep_recs, peakStep_recs]
          omega
    · rw [scanLoop_exit xs th mn mp (fuel + 1) np st hnp]
      exact le_trans (endCheck_length_le xs th mn st) (by omega)

/-- The bootstrap starts the cursor at `ii = -1` or `ii = 0`. -/
theorem bootstrap_fst_le (xs : List ℚ) (inds : List Nat) :
    (bootstrap xs inds).1 ≤ 1 := by
  unfold bootstrap
  split
  · split <;> simp
  · split <;> simp

/-- The bootstrap removes at most one candidate. -/
theorem bootstrap_len_ge (xs : List ℚ) (inds : List Nat) (h : 2 < xs.length) :
    2 ≤ (bootstrap xs inds).2.1.length := by
  unfold bootstrap
  split
  · split
    · simp only
      rw [List.length_append, List.length_take, List.length_drop]
      omega
    · simpa using by omega
  · split
    · simp only
      rw [List.length_drop]
      omega
    · simpa using by omega

/-- C10: in the non-degenerate scanner path the number of records written
by the loop and the end-point check never exceeds the preallocated
capacity `maxPeaks = ceil(length / 2)` (computed from the post-bootstrap
candidate count), so every write `peak_loc[c_ind]` / `peak_mag[c_ind]` is
within bounds. -/
theorem C10_capacity (xs : List ℚ) (inds : List Nat) (th : ℚ)
    (hth : 0 ≤ th) (hlen : 2 < xs.length) :
    (scanRecs (bootstrap xs inds).2.1 th (listMin xs) (bootstrap xs inds).1).length ≤
      maxPeaksOf (bootstrap xs inds).2.1 := by
  have h1 := bootstrap_fst_le xs inds
  have h2 := bootstrap_len_ge xs inds hlen
  unfold scanRecs maxPeaksOf
  refine le_trans (scan_end_count (bootstrap xs inds).2.1 th (listMin xs) _ hth _ _ _) ?_
  simp only [List.length_nil]
  omega

/-- C10 witness: the scanner path on `[0, 3, 0]`. -/
theorem C10_capacity_witness :
    (0 : ℚ) ≤ 1 ∧ 2 < ([0, 3, 0] : List ℚ).length ∧
    (scanRecs (bootstrap [0, 3, 0] [0, 1, 2]).2.1 1 (listMin [0, 3, 0])
        (bootstrap [0, 3, 0] [0, 1, 2]).1).length ≤
      maxPeaksOf (bootstrap [0, 3, 0] [0, 1, 2]).2.1 :=
  ⟨by norm_num, by simp,
    C10_capacity [0, 3, 0] [0, 1, 2] 1 (by norm_num) (by simp)⟩

/-! ### Strictly increasing output indices (C4) -/

/-- Folding `min` only lowers the accumulator. -/
theorem foldl_min_le_init (r : List ℚ) (a : ℚ) : r.foldl min a ≤ a := by
  induction r generalizing a with
  | nil => exact le_refl a
  | cons b t ih => exact le_trans (ih (min a b)) (min_le_left a b)

/-- Folding `min` bounds every element of the folded list. -/
theorem foldl_min_le_mem (r : List ℚ) : ∀ (a x : ℚ), x ∈ r → r.foldl min a ≤ x := by
  induction r with
  | nil => intro a x hx; cases hx
  | cons b t ih =>
    intro a x hx
    rcases List.mem_cons.mp hx with h | h
    · subst h
      exact le_trans (foldl_min_le_init t (min a x)) (min_le_right a x)
    · exact ih (min a b) x h

/-- `listMin` is a lower bound for every member. -/
theorem listMin_le (l : List ℚ) (x : ℚ) (hx : x ∈ l) : listMin l ≤ x := by
  cases l with
  | nil => cases hx
  | cons a r =>
    rcases List.mem_cons.mp hx with h | h
    · subst h
      exact foldl_min_le_init r x
    · exact foldl_min_le_mem r a x h

/-- Folding `max` only raises the accumulator. -/
theorem le_foldl_max_init (r : List ℚ) (a : ℚ) : a ≤ r.foldl max a := by
  induction r generalizing a with
  | nil => exact le_refl a
  | cons b t ih => exact le_trans (le_max_left a b) (ih (max a b))

/-- `listMax` is an upper bound for the head, hence `listMin ≤ listMax`. -/
theorem listMin_le_listMax (l : List ℚ) (h : l ≠ []) : listMin l ≤ listMax l := by
  cases l with
  | nil => exact absurd rfl h
  | cons a r =>
    exact le_trans (foldl_min_le_init r a) (le_foldl_max_init r a)

/-- The loop invariant at cursor `np`: the records written so far have
strictly increasing candidate indices, all below `length - 1` and below the
cursor; a pending peak (recognisable by `min_mag < temp_mag`) sits below
`length - 1` and below the cursor, and (while unconfirmed) above every
written record; and `temp_mag` never drops below `min_mag`. -/
def ScanInv (xs : List ℚ) (mn : ℚ) (np : Nat) (st : ScanSt) : Prop :=
  st.recs.Pairwise (fun a b => a.1 < b.1) ∧
  (∀ r ∈ st.recs, r.1 + 1 < xs.length ∧ r.1 < np) ∧
  (mn < st.temp_mag → st.temp_loc + 1 < xs.length ∧ st.temp_loc < np) ∧
  (st.found_peak = false → mn < st.temp_mag → ∀ r ∈ st.recs, r.1 < st.temp_loc) ∧
  mn ≤ st.temp_mag

/-- The cursor-free part of the invariant, as it holds after the loop. -/
def ScanOut (xs : List ℚ) (mn : ℚ) (st : ScanSt) : Prop :=
  st.recs.Pairwise (fun a b => a.1 < b.1) ∧
  (∀ r ∈ st.recs, r.1 + 1 < xs.length) ∧
  (mn < st.temp_mag → st.temp_loc + 1 < xs.length) ∧
  (st.found_peak = false → mn < st.temp_mag → ∀ r ∈ st.recs, r.1 < st.temp_loc) ∧
  mn ≤ st.temp_mag

theorem scanOut_of_inv (xs : List ℚ) (mn : ℚ) (np : Nat) (st : ScanSt)
    (h : ScanInv xs mn np st) : ScanOut xs mn st := by
  obtain ⟨h1, h2, h3, h4, h5⟩ := h
  exact ⟨h1, fun r hr => (h2 r hr).1, fun hm => (h3 hm).1, h4, h5⟩

/-- The invariant survives the reset check. -/
theorem scanInv_peakStep (xs : List ℚ) (th mn : ℚ) (mp np : Nat) (st : ScanSt)
    (h : ScanInv xs mn np st) : ScanInv xs mn np (peakStep xs th mn mp np st) := by
  obtain ⟨h1, h2, h3, h4, h5⟩ := h
  unfold peakStep
  split
  · exact ⟨h1, h2, fun hm => absurd hm (lt_irrefl mn),
      fun _ hm => absurd hm (lt_irrefl mn), le_refl mn⟩
  · exact ⟨h1, h2, h3, h4, h5⟩

/-- The invariant survives adopting a pending peak, advancing the cursor. -/
theorem scanInv_pendStep (xs : List ℚ) (th mn : ℚ) (np : Nat) (st : ScanSt)
    (hnp : np + 2 ≤ xs.length) (h : ScanInv xs mn np st) :
    ScanInv xs mn (np + 1) (pendStep xs th np st) := by
  obtain ⟨h1, h2, h3, h4, h5⟩ := h
  unfold pendStep
  split
  · rename_i hc
    refine ⟨h1, fun r hr => ⟨(h2 r hr).1, Nat.lt_succ_of_lt (h2 r hr).2⟩, ?_, ?_, ?_⟩
    · intro _
      refine ⟨?_, ?_⟩
      · show np + 1 < xs.length
        omega
      · show np < np + 1
        omega
    · intro _ _ r hr
      exact (h2 r hr).2
    · exact le_trans h5 (le_of_lt hc.1)
  · exact ⟨h1, fun r hr => ⟨(h2 r hr).1, Nat.lt_succ_of_lt (h2 r hr).2⟩,
      fun hm => ⟨(h3 hm).1, Nat.lt_succ_of_lt (h3 hm).2⟩, h4, h5⟩

/-- The invariant survives a valley step, advancing the cursor. -/
theorem scanInv_valleyStep (xs : List ℚ) (th mn : ℚ) (nv : Nat) (st : ScanSt)
    (hth : 0 ≤ th) (hmn : ∀ v ∈ xs, mn ≤ v) (hnv : nv < xs.length)
    (h : ScanInv xs mn nv st) : ScanInv xs mn (nv + 1) (valleyStep xs th nv st) := by
  obtain ⟨h1, h2, h3, h4, h5⟩ := h
  unfold valleyStep
  split
  · rename_i hc
    have hx : mn ≤ xs.getD nv 0 := by
      refine hmn _ ?_
      rw [List.getD_eq_getElem?_getD, List.getElem?_eq_getElem hnv]
      exact List.getElem_mem hnv
    have hm : mn < st.temp_mag := lt_of_le_of_lt (by linarith) hc.2
    have h3x := h3 hm
    have h4x := h4 hc.1 hm
    refine ⟨?_, ?_, ?_, ?_, h5⟩
    · rw [List.pairwise_append]
      refine ⟨h1, List.pairwise_singleton _ _, ?_⟩
      intro a ha b hb
      rw [List.mem_singleton] at hb
      subst hb
      exact h4x a ha
    · intro r hr
      rw [List.mem_append] at hr
      rcases hr with hr | hr
      · exact ⟨(h2 r hr).1, Nat.lt_succ_of_lt (h2 r hr).2⟩
      · rw [List.mem_singleton] at hr
        subst hr
        exact ⟨h3x.1, Nat.lt_succ_of_lt h3x.2⟩
    · intro _
      exact ⟨h3x.1, Nat.lt_succ_of_lt h3x.2⟩
    · intro hfp
      exact absurd hfp (by simp)
  · split
    · exact ⟨h1, fun r hr => ⟨(h2 r hr).1, Nat.lt_succ_of_lt (h2 r hr).2⟩,
        fun hm => ⟨(h3 hm).1, Nat.lt_succ_of_lt (h3 hm).2⟩, h4, h5⟩
    · exact ⟨h1, fun r hr => ⟨(h2 r hr).1, Nat.lt_succ_of_lt (h2 r hr).2⟩,
        fun hm => ⟨(h3 hm).1, Nat.lt_succ_of_lt (h3 hm).2⟩, h4, h5⟩

/-- The invariant is carried through the whole scan loop. -/
theorem scanInv_loop (xs : List ℚ) (th mn : ℚ) (mp : Nat)
    (hth : 0 ≤ th) (hmn : ∀ v ∈ xs, mn ≤ v) :
    ∀ fuel np st, ScanInv xs mn np st →
      ScanOut xs mn (scanLoop xs th mn mp fuel np st) := by
  intro fuel
  induction fuel with
  | zero => exact fun np st h => scanOut_of_inv xs mn np st h
  | succ fuel ih =>
    intro np st h
    rw [scanLoop_succ]
    by_cases hnp : np < xs.length
    · rw [if_pos hnp]
      by_cases hbreak : np = xs.length - 1
      · rw [if_pos hbreak]
        exact scanOut_of_inv xs mn np _ (scanInv_peakStep xs th mn mp np st h)
      · rw [if_neg hbreak]
        refine ih (np + 2) _ ?_
        have hnp2 : np + 2 ≤ xs.length := by omega
        exact scanInv_valleyStep xs th mn (np + 1) _ hth hmn (by omega)
          (scanInv_pendStep xs th mn np _ hnp2 (scanInv_peakStep xs th mn mp np st h))
    · rw [if_neg hnp]
      exact scanOut_of_inv xs mn np st h

/-- After the end-point check the records are still strictly increasing in
their candidate index, and all indices are in range. -/
theorem endCheck_sorted (xs : List ℚ) (th mn : ℚ) (st : ScanSt)
    (hL : 0 < xs.length) (h : ScanOut xs mn st) :
    (endCheck xs th mn st).Pairwise (fun a b => a.1 < b.1) ∧
    ∀ r ∈ endCheck xs th mn st, r.1 < xs.length := by
  obtain ⟨h1, h2, h3, h4, h5⟩ := h
  unfold endCheck
  split
  · constructor
    · rw [List.pairwise_append]
      refine ⟨h1, List.pairwise_singleton _ _, ?_⟩
      intro a ha b hb
      rw [List.mem_singleton] at hb
      subst hb
      have := h2 a ha
      simp only
      omega
    · intro r hr
      rw [List.mem_append] at hr
      rcases hr with hr | hr
      · have := h2 r hr
        omega
      · rw [List.mem_singleton] at hr
        subst hr
        simp only
        omega
  · split
    · rename_i hp
      have h4x := h4 hp.1 hp.2
      have h3x := h3 hp.2
      constructor
      · rw [List.pairwise_append]
        refine ⟨h1, List.pairwise_singleton _ _, ?_⟩
        intro a ha b hb
        rw [List.mem_singleton] at hb
        subst hb
        exact h4x a ha
      · intro r hr
        rw [List.mem_append] at hr
        rcases hr with hr | hr
        · have := h2 r hr
          omega
        · rw [List.mem_singleton] at hr
          subst hr
          simp only
          omega
    · refine ⟨h1, fun r hr => ?_⟩
      have := h2 r hr
      omega

/-- The initial scanner state satisfies the invariant at any cursor. -/
theorem scanInv_init (xs : List ℚ) (mn : ℚ) (np0 : Nat) :
    ScanInv xs mn np0 ⟨0, mn, false, mn, []⟩ :=
  ⟨List.Pairwise.nil, fun r hr => absurd hr (List.not_mem_nil r),
    fun hm => absurd hm (lt_irrefl mn),
    fun _ hm => absurd hm (lt_irrefl mn), le_refl mn⟩

/-- The records produced by the scan (loop plus end-point check) have
strictly increasing, in-range candidate indices. -/
theorem scanRecs_sorted (xs : List ℚ) (th mn : ℚ) (np0 : Nat)
    (hth : 0 ≤ th) (hmn : ∀ v ∈ xs, mn ≤ v) (hL : 0 < xs.length) :
    (scanRecs xs th mn np0).Pairwise (fun a b => a.1 < b.1) ∧
    ∀ r ∈ scanRecs xs th mn np0, r.1 < xs.length := by
  unfold scanRecs
  exact endCheck_sorted xs th mn _ hL
    (scanInv_loop xs th mn (maxPeaksOf xs) hth hmn (xs.length + 1) np0 _
      (scanInv_init xs mn np0))

/-- `np.diff` shortens the list by one. -/
theorem npDiff_length (w : List ℚ) : (npDiff w).length = w.length - 1 := by
  unfold npDiff
  rw [List.length_map, List.length_zip, List.length_tail]
  exact min_eq_right (by omega)

/-- Plateau fixing preserves the length. -/
theorem fixZeros_length (d : List ℚ) : (fixZeros d).length = d.length := by
  unfold fixZeros
  rw [List.length_map]

/-- The sign-change positions are strictly increasing. -/
theorem signChanges_pairwise (d : List ℚ) : (signChanges d).Pairwise (· < ·) := by
  unfold signChanges
  rw [List.pairwise_map]
  exact List.Pairwise.imp (fun h => by omega)
    (List.Pairwise.sublist (List.filter_sublist _) (List.pairwise_lt_range _))

/-- Every sign-change position is interior: at least 1, at most `d.length - 1`. -/
theorem signChanges_mem (d : List ℚ) (x : Nat) (hx : x ∈ signChanges d) :
    1 ≤ x ∧ x + 1 ≤ d.length := by
  unfold signChanges at hx
  rw [List.mem_map] at hx
  obtain ⟨i, hi, rfl⟩ := hx
  rw [List.mem_filter] at hi
  have := List.mem_range.mp hi.1
  omega

/-- Candidate count: first sample, interior sign changes, last sample. -/
theorem candidates_length (w : List ℚ) (hw : w ≠ []) :
    (candidates w).length = (signChanges (fixZeros (npDiff w))).length + 2 := by
  have hpos : 0 < w.length := List.length_pos_iff_ne_nil.mpr hw
  unfold candidates
  rw [List.length_append, List.length_append, List.length_take, List.length_map,
    List.length_drop, min_eq_left (by omega)]
  omega

/-- The candidate index list has the same length as the candidate list. -/
theorem candIdxs_length (w : List ℚ) :
    (candIdxs w).length = (signChanges (fixZeros (npDiff w))).length + 2 := by
  unfold candIdxs
  simp

/-- The candidate original indices are strictly increasing. -/
theorem candIdxs_pairwise (w : List ℚ) (hw : 2 ≤ w.length) :
    (candIdxs w).Pairwise (· < ·) := by
  have hd : (fixZeros (npDiff w)).length = w.length - 1 := by
    rw [fixZeros_length, npDiff_length]
  unfold candIdxs
  rw [List.pairwise_cons]
  constructor
  · intro a ha
    rw [List.mem_append] at ha
    rcases ha with ha | ha
    · have := signChanges_mem _ a ha
      omega
    · rw [List.mem_singleton] at ha
      subst ha
      omega
  · rw [List.pairwise_append]
    refine ⟨signChanges_pairwise _, List.pairwise_singleton _ _, ?_⟩
    intro a ha b hb
    rw [List.mem_singleton] at hb
    subst hb
    have := signChanges_mem _ a ha
    rw [hd] at this
    omega

/-- Dropping the second element keeps a sublist. -/
theorem take1_drop2_sublist {α : Type} (l : List α) :
    (l.take 1 ++ l.drop 2).Sublist l := by
  cases l with
  | nil => simp
  | cons a t =>
    cases t with
    | nil => simp
    | cons b t2 =>
      show (a :: t2).Sublist (a :: b :: t2)
      exact List.Sublist.cons₂ a (List.sublist_cons_self b t2)

/-- The bootstrap drops the same positions from the value and index lists,
so it keeps their lengths equal, keeps the index list strictly increasing,
and keeps every surviving value a member of the original candidates. -/
theorem bootstrap_pieces (xs : List ℚ) (inds : List Nat)
    (hlen : inds.length = xs.length) (hpw : inds.Pairwise (· < ·)) :
    (bootstrap xs inds).2.2.length = (bootstrap xs inds).2.1.length ∧
    (bootstrap xs inds).2.2.Pairwise (· < ·) ∧
    ∀ v ∈ (bootstrap xs inds).2.1, v ∈ xs := by
  unfold bootstrap
  split
  · split
    · refine ⟨?_, hpw.sublist (take1_drop2_sublist inds),
        fun v hv => (take1_drop2_sublist xs).subset hv⟩
      show (inds.take 1 ++ inds.drop 2).length = (xs.take 1 ++ xs.drop 2).length
      rw [List.length_append, List.length_append, List.length_take, List.length_take,
        List.length_drop, List.length_drop, hlen]
    · exact ⟨hlen, hpw, fun v hv => hv⟩
  · split
    · refine ⟨?_, hpw.sublist (List.drop_sublist 1 inds),
        fun v hv => (List.drop_sublist 1 xs).subset hv⟩
      show (inds.drop 1).length = (xs.drop 1).length
      rw [List.length_drop, List.length_drop, hlen]
    · exact ⟨hlen, hpw, fun v hv => hv⟩

/-- Mapping strictly increasing in-range positions through a strictly
increasing index list yields strictly increasing indices. -/
theorem mapped_pairwise (inds : List Nat) (recs : List (Nat × ℚ))
    (hp : inds.Pairwise (· < ·))
    (hr : recs.Pairwise (fun a b => a.1 < b.1))
    (hb : ∀ r ∈ recs, r.1 < inds.length) :
    ((recs.map (fun r => (inds.getD r.1 0, r.2))).map Prod.fst).Pairwise (· < ·) := by
  rw [List.map_map, List.pairwise_map]
  refine hr.imp_of_mem ?_
  intro a b ha hb2 hab
  show inds.getD a.1 0 < inds.getD b.1 0
  have ha2 := hb a ha
  have hb3 := hb b hb2
  rw [List.getD_eq_getElem?_getD, List.getD_eq_getElem?_getD,
    List.getElem?_eq_getElem ha2, List.getElem?_eq_getElem hb3]
  simp only [Option.getD_some]
  have := List.pairwise_iff_get.mp hp ⟨a.1, ha2⟩ ⟨b.1, hb3⟩ hab
  simpa [List.get_eq_getElem] using this

/-- Whenever `core` returns numpy arrays of records (the scanner path),
their original-signal indices are strictly increasing. -/
theorem core_npArr_sorted (w : List ℚ) (th : ℚ) (rs : List (Nat × ℚ))
    (hth : 0 ≤ th) (hok : core w th = .ok (.npArr rs)) :
    (rs.map Prod.fst).Pairwise (· < ·) := by
  unfold core at hok
  by_cases h0 : (candidates w).length = 0
  · rw [if_pos h0] at hok
    exact Except.noConfusion hok
  rw [if_neg h0] at hok
  by_cases h2 : 2 < (candidates w).length
  swap
  · rw [if_neg h2] at hok
    split at hok
    · exact RawRes.noConfusion (Except.ok.inj hok)
    · exact RawRes.noConfusion (Except.ok.inj hok)
  rw [if_pos h2] at hok
  have hsp := Except.ok.inj hok
  unfold scannerPath at hsp
  have hrs := (RawRes.npArr.inj hsp).symm
  have hw : w ≠ [] := by
    intro hwe
    subst hwe
    exact h0 rfl
  have hw2 : 2 ≤ w.length := by
    have hcl := candidates_length w hw
    have hk : (signChanges (fixZeros (npDiff w))) ≠ [] := by
      intro hknil
      rw [hknil, List.length_nil] at hcl
      omega
    obtain ⟨x, hx⟩ := List.exists_mem_of_ne_nil _ hk
    obtain ⟨h1x, h2x⟩ := signChanges_mem _ x hx
    have hdl := npDiff_length w
    have hfl := fixZeros_length (npDiff w)
    omega
  have hlen : (candIdxs w).length = (candidates w).length := by
    rw [candIdxs_length, candidates_length w hw]
  obtain ⟨hblen, hbpw, hbmem⟩ :=
    bootstrap_pieces (candidates w) (candIdxs w) hlen (candIdxs_pairwise w hw2)
  have hmn : ∀ v ∈ (bootstrap (candidates w) (candIdxs w)).2.1,
      listMin (candidates w) ≤ v :=
    fun v hv => listMin_le _ v (hbmem v hv)
  have hL2 := bootstrap_len_ge (candidates w) (candIdxs w) h2
  obtain ⟨hrpw, hrbd⟩ := scanRecs_sorted (bootstrap (candidates w) (candIdxs w)).2.1 th
    (listMin (candidates w)) (bootstrap (candidates w) (candIdxs w)).1 hth hmn (by omega)
  rw [hrs]
  exact mapped_pairwise _ _ hbpw hrpw (fun r hr => by rw [hblen]; exact hrbd r hr)

/-- Inversion for a successful `peak_finder` call: the result is either
empty or the index-preserving image of a scanner-path record list. -/
theorem peak_finder_ok_cases (ndim : Nat) (x0 : List ℚ) (topt : Option ℚ) (e : ℤ)
    (recs : List (Nat × ℚ)) (hok : peak_finder ndim x0 topt e = .ok recs) :
    recs = [] ∨ ∃ th rs, resolveThresh x0 topt = .ok th ∧
      core (if e = -1 then x0.map (fun v => -v) else x0) th = .ok (.npArr rs) ∧
      recs.map Prod.fst = rs.map Prod.fst := by
  unfold peak_finder at hok
  split at hok
  · exact Except.noConfusion hok
  · split at hok
    · exact Except.noConfusion hok
    · rename_i th hres
      by_cases he : e = 1 ∨ e = -1
      swap
      · rw [if_neg he] at hok
        exact Except.noConfusion hok
      rw [if_pos he] at hok
      split at hok
      · exact Except.noConfusion hok
      · rename_i raw hcore
        by_cases hneg : e < 0
        · rw [if_pos hneg] at hok
          cases raw with
          | pyEmpty =>
            simp only [negateRes] at hok
            exact Except.noConfusion hok
          | scalar p =>
            simp only [negateRes, finalize] at hok
            exact Except.noConfusion hok
          | npArr rs =>
            simp only [negateRes, finalize] at hok
            right
            refine ⟨th, rs, hres, hcore, ?_⟩
            rw [← Except.ok.inj hok, List.map_map]
            have hcomp : (Prod.fst ∘ fun p : Nat × ℚ => (p.1, -p.2)) = Prod.fst :=
              funext fun p => rfl
            rw [hcomp]
        · rw [if_neg hneg] at hok
          cases raw with
          | pyEmpty =>
            left
            simp only [finalize] at hok
            exact (Except.ok.inj hok).symm
          | scalar p =>
            simp only [finalize] at hok
            exact Except.noConfusion hok
          | npArr rs =>
            right
            simp only [finalize] at hok
            exact ⟨th, rs, hres, hcore, by rw [Except.ok.inj hok]⟩

/-- C4: for every valid call — rank 1, nonempty signal, a non-negative
threshold when one is passed (the threshold domain of the spec; the computed
default is non-negative automatically), and either polarity — the indices
of the records returned by `peak_finder` are strictly increasing. -/
theorem C4_indices_strictly_increasing (x0 : List ℚ) (topt : Option ℚ) (e : ℤ)
    (recs : List (Nat × ℚ)) (hx : x0 ≠ [])
    (hthresh : ∀ t, topt = some t → 0 ≤ t)
    (hok : peak_finder 1 x0 topt e = .ok recs) :
    (recs.map Prod.fst).Pairwise (· < ·) := by
  rcases peak_finder_ok_cases 1 x0 topt e recs hok with hnil | ⟨th, rs, hres, hcore, hfst⟩
  · subst hnil
    simp
  · rw [hfst]
    refine core_npArr_sorted _ th rs ?_ hcore
    rcases topt with _ | t
    · simp only [resolveThresh] at hres
      rw [if_neg hx] at hres
      rw [← Except.ok.inj hres]
      have hmm := listMin_le_listMax x0 hx
      have h4 : (0 : ℚ) ≤ 4 := by norm_num
      exact div_nonneg (by linarith) h4
    · simp only [resolveThresh] at hres
      rw [← Except.ok.inj hres]
      exact hthresh t rfl

/-- C4 witness: the single oscillation `[0, 3, 0]` with threshold 1. -/
theorem C4_indices_strictly_increasing_witness :
    ([0, 3, 0] : List ℚ) ≠ [] ∧
    peak_finder 1 [0, 3, 0] (some 1) 1 = .ok [(1, 3)] ∧
    (([((1 : Nat), (3 : ℚ))]).map Prod.fst).Pairwise (· < ·) := by
  refine ⟨by simp, by with_unfolding_all rfl, ?_⟩
  exact C4_indices_strictly_increasing [0, 3, 0] (some 1) 1 [(1, 3)] (by simp)
    (fun t ht => by injection ht with h; rw [← h]; norm_num)
    (by with_unfolding_all rfl)

end Preproc
